import Mathlib

/-!
# zipchecker: signature matching and archive traversal

A shallow embedding of `main.go` (`checkStaticMagic`, the body of the loop of
`zipCheck`, and the handler `zipCheck` itself), followed by the properties
proved about it.

Conventions of the embedding:

* a byte is a `Fin 256`, a `[]byte` is a `List Byte`;
* Go's `int` is taken to be 64 bits wide (the width on amd64/arm64); `int`
  arithmetic is arithmetic on `Int` followed by `wrapInt`, the reduction to
  the two's complement range `[-2^63, 2^63 - 1]`;
* a run-time panic (index out of range) is the `panic` constructor of
  `Outcome`;
* a slice that may be `nil` (`[]string`, `[]fileDesc`) is a `GoSlice`, which
  keeps `nil` apart from the empty non-nil slice, because `encoding/json`
  encodes the former as `null` and the latter as `[]`;
* the length of a Go slice always fits in an `int`; a Lean list has no such
  bound, so the properties of byte buffers carry the hypothesis
  `(b.length : Int) ≤ maxInt`.
-/

namespace ZipChecker

/-! ## Machine integers, bytes, panics -/

/-- One byte. -/
abbrev Byte := Fin 256

/-- Smallest value of Go's 64-bit `int`. -/
def minInt : Int := -(2 ^ 63)

/-- Largest value of Go's 64-bit `int`. -/
def maxInt : Int := 2 ^ 63 - 1

/-- Two's complement wrap-around of an integer result into the range of `int`. The definition is
irreducible so that elaboration never tries to compute with `2 ^ 63` on a symbolic argument;
proofs unfold it explicitly. -/
@[irreducible] def wrapInt (x : Int) : Int := (x + 2 ^ 63) % 2 ^ 64 - 2 ^ 63

/-- Result of running Go code that may panic with `index out of range [idx] with length len`. -/
inductive Outcome (α : Type) where
  | ok (val : α)
  | panic (idx : Int) (len : Nat)
  deriving DecidableEq, Repr

/-- Sequencing of computations that may panic. -/
def Outcome.bind {α β : Type} (x : Outcome α) (f : α → Outcome β) : Outcome β :=
  match x with
  | .ok a => f a
  | .panic i n => .panic i n

instance : Monad Outcome where
  pure := Outcome.ok
  bind := Outcome.bind

/-- The index expression `s[i]` on a byte slice, with Go's bounds check. -/
def index (s : List Byte) (i : Int) : Outcome Byte :=
  if 0 ≤ i then
    match s[i.toNat]? with
    | some b => .ok b
    | none => .panic i s.length
  else .panic i s.length

/-- The slice expression `s[lo:hi]` for in-range bounds `lo ≤ hi ≤ len(s)`. -/
def sliceOf (s : List Byte) (lo hi : Nat) : List Byte := (s.drop lo).take (hi - lo)

/-! ## `checkStaticMagic` -/

/-- The loop `for i, magicByte := range magicSlice { ... }` of `checkStaticMagic`,
started at index `i` on the remaining elements of `magicSlice`. -/
def checkStaticMagicLoop (offset : Int) (subjectSlice : List Byte) :
    Nat → List Byte → Outcome Bool
  | _, [] => .ok true
  | i, magicByte :: rest =>
    let subjOffset := wrapInt ((i : Int) + offset)
    match index subjectSlice subjOffset with
    | .panic j n => .panic j n
    | .ok b =>
      if b ≠ magicByte then .ok false
      else checkStaticMagicLoop offset subjectSlice (i + 1) rest

/-- Embedding of `func checkStaticMagic(offset int, subjectSlice []byte, magicSlice []byte) bool`. -/
def checkStaticMagic (offset : Int) (subjectSlice magicSlice : List Byte) : Outcome Bool :=
  let magicLen : Int := magicSlice.length
  if wrapInt ((subjectSlice.length : Int) - offset) < magicLen then
    -- Not enough bytes
    .ok false
  else checkStaticMagicLoop offset subjectSlice 0 magicSlice

/-! ## Slices that may be nil -/

/-- A Go slice value of element type `α`: either `nil` or a non-nil slice with the given elements. -/
inductive GoSlice (α : Type) where
  | nil
  | mk (elems : List α)
  deriving DecidableEq, Repr

/-- The elements of a slice; `nil` has none. -/
def GoSlice.toList {α : Type} : GoSlice α → List α
  | .nil => []
  | .mk elems => elems

/-- The built-in `append(s, x)`: the result is never `nil`. -/
def GoSlice.append {α : Type} (s : GoSlice α) (x : α) : GoSlice α :=
  .mk (s.toList ++ [x])

/-! ## The classification block of `zipCheck` (lines 289-340) -/

/-- The short-circuiting `a || b` on conditions that may panic: `b` is run only when `a` is false. -/
def Outcome.orElse (a b : Outcome Bool) : Outcome Bool :=
  match a with
  | .ok true => .ok true
  | .ok false => b
  | .panic i n => .panic i n

/-- The statements from `typeHints := []string{}` up to the last `append` in the loop body of
`zipCheck`: the value of `typeHints` for the extracted bytes of one entry. -/
def typeHints (unzippedFileBytes : List Byte) : Outcome (GoSlice String) := do
  let mut hints : GoSlice String := .mk []
  -- PDFs, []byte("%PDF")
  if ← checkStaticMagic 0 unzippedFileBytes [0x25, 0x50, 0x44, 0x46] then
    hints := hints.append "PDF"
  -- Windows EXE, []byte("MZ")
  if ← checkStaticMagic 0 unzippedFileBytes [0x4D, 0x5A] then
    hints := hints.append "Windows Executable"
  -- ELF Executable
  if ← checkStaticMagic 0 unzippedFileBytes [0x7F, 0x45, 0x4C, 0x46] then
    hints := hints.append "ELF Executable"
  -- Zip Files
  if ← (checkStaticMagic 0 unzippedFileBytes [0x50, 0x4B, 0x03]).orElse
      ((checkStaticMagic 0 unzippedFileBytes [0x50, 0x4B, 0x04]).orElse
        (checkStaticMagic 0 unzippedFileBytes [0x50, 0x4B, 0x05])) then
    hints := hints.append "ZIP"
  -- doc/xls/ppt (legacy binary formats)
  if ← checkStaticMagic 0 unzippedFileBytes [0xD0, 0xCF, 0x11, 0xE0, 0xA1, 0xB1, 0x1A, 0xE1] then
    hints := hints.append "MS-Office"
  -- DMG
  if ← checkStaticMagic 0 unzippedFileBytes [0x6B, 0x6F, 0x6C, 0x79] then
    hints := hints.append "Apple Disk Image"
  return hints

/-! ## The table-driven classifier, as the specification words it -/

/-- One static-magic test of the specification: offset, exact pattern, label. -/
structure SignatureRule where
  offset : Nat
  pattern : List Byte
  label : String
  deriving DecidableEq, Repr

/-- The signature table of the specification, in its order. -/
def specRules : List SignatureRule :=
  [ ⟨0, [0x25, 0x50, 0x44, 0x46], "PDF"⟩,
    ⟨0, [0x4D, 0x5A], "Windows Executable"⟩,
    ⟨0, [0x7F, 0x45, 0x4C, 0x46], "ELF Executable"⟩,
    ⟨0, [0x50, 0x4B, 0x03], "ZIP"⟩,
    ⟨0, [0x50, 0x4B, 0x04], "ZIP"⟩,
    ⟨0, [0x50, 0x4B, 0x05], "ZIP"⟩,
    ⟨0, [0xD0, 0xCF, 0x11, 0xE0, 0xA1, 0xB1, 0x1A, 0xE1], "MS-Office"⟩,
    ⟨0, [0x6B, 0x6F, 0x6C, 0x79], "Apple Disk Image"⟩ ]

/-- The specification's test of one rule: `content` has at least `offset + len(pattern)` bytes and
`content[offset : offset+len(pattern)]` equals `pattern`. -/
def SignatureRule.matchesContent (r : SignatureRule) (content : List Byte) : Bool :=
  decide (r.offset + r.pattern.length ≤ content.length) &&
    decide (sliceOf content r.offset (r.offset + r.pattern.length) = r.pattern)

/-- The specification's classifier over a rule table: every rule is tested on its own, and the
label of each matching rule is appended in table order. -/
def classifyWith (rules : List SignatureRule) (content : List Byte) : List String :=
  rules.foldl (fun out r => if r.matchesContent content then out ++ [r.label] else out) []

/-- The specification's `classify`, over the table `specRules`. -/
def specClassify (content : List Byte) : List String := classifyWith specRules content

/-! ## The handler `zipCheck` -/

/-- A `*zip.File` as far as `zipCheck` looks at it: its name, and what `readZipFile` returns for
it (the extracted bytes, or the error of `Open`/`ReadAll`). -/
structure ZipFile where
  Name : String
  readZipFile : Except String (List Byte)

/-- Embedding of `type fileDesc struct`. -/
structure fileDesc where
  Filename : String
  Size : Int
  TypeHints : GoSlice String
  deriving DecidableEq, Repr

/-- Embedding of `strings.HasSuffix`. -/
def hasSuffix (s suffix : String) : Bool := suffix.data.isSuffixOf s.data

/-- The lines `zipCheck` prints (through `log.Println` or `fmt.Println`), in order. -/
inductive LogLine where
  | failedToReadBody (err : String)
  | failedToReadZip (err : String)
  | hasSuffixSkipping
  | readingFile (name : String)
  | failedToInspect (err : String)
  | writeFailed (err : String)
  deriving DecidableEq, Repr

/-- The variables the loop over `zipReader.File` updates: `fileDescriptions` and the printed lines. -/
structure LoopState where
  fileDescriptions : GoSlice fileDesc
  printed : List LogLine
  deriving DecidableEq, Repr

/-- One pass through the body of the loop `for _, zipFile := range zipReader.File { ... }` of
`zipCheck`, from the state before to the state after (a `continue` ends the pass). -/
def zipCheckBody (zipFile : ZipFile) (st : LoopState) : Outcome LoopState :=
  if hasSuffix zipFile.Name "/" then
    .ok { st with printed := st.printed ++ [.hasSuffixSkipping] }
  else
    let printed := st.printed ++ [.readingFile zipFile.Name]
    match zipFile.readZipFile with
    | .error err => .ok { st with printed := printed ++ [.failedToInspect err] }
    | .ok unzippedFileBytes =>
      (typeHints unzippedFileBytes).bind fun hints =>
        .ok
          { fileDescriptions := st.fileDescriptions.append
              { Filename := zipFile.Name
                Size := (unzippedFileBytes.length : Int)
                TypeHints := hints }
            printed := printed }

/-- The loop `for _, zipFile := range zipReader.File { ... }` of `zipCheck`. -/
def zipCheckLoop : List ZipFile → LoopState → Outcome LoopState
  | [], st => .ok st
  | zipFile :: rest, st =>
    match zipCheckBody zipFile st with
    | .panic i n => .panic i n
    | .ok st1 => zipCheckLoop rest st1

/-- A JSON value inside an encoded `fileDesc`. -/
inductive JsonField where
  | null
  | str (s : String)
  | num (n : Int)
  | strings (xs : List String)
  deriving DecidableEq, Repr

/-- A JSON document as `json.Marshal` produces it for a `[]fileDesc`: `null`, or an array of
objects, each an ordered list of key and value. -/
inductive JsonDoc where
  | null
  | array (objects : List (List (String × JsonField)))
  deriving DecidableEq, Repr

/-- The encoding of a `[]string` by `encoding/json`: a nil slice is `null`, any other an array. -/
def marshalStrings : GoSlice String → JsonField
  | .nil => .null
  | .mk xs => .strings xs

/-- The encoding of one `fileDesc`, with the keys of its struct tags. -/
def marshalFileDesc (d : fileDesc) : List (String × JsonField) :=
  [("filename", .str d.Filename), ("size", .num d.Size), ("type_hints", marshalStrings d.TypeHints)]

/-- The call `json.Marshal(fileDescriptions)`: a nil slice is encoded as `null`, any other as an
array; no value of type `[]fileDesc` makes the encoder fail. -/
def jsonMarshal : GoSlice fileDesc → Except String JsonDoc
  | .nil => .ok .null
  | .mk ds => .ok (.array (ds.map marshalFileDesc))

/-- What is passed to one call of `w.Write`. -/
inductive Payload where
  | json (doc : JsonDoc)
  | text (s : String)
  deriving DecidableEq, Repr

/-- The `http.ResponseWriter` of one request: the error its `Write` returns (if the connection is
broken), the status code sent so far (if any) and the payloads written so far. -/
structure ResponseWriter where
  writeErr : Option String
  status : Option Nat
  body : List Payload
  deriving DecidableEq, Repr

/-- The method `WriteHeader`: the first status code sent is the one that counts. -/
def ResponseWriter.WriteHeader (w : ResponseWriter) (code : Nat) : ResponseWriter :=
  match w.status with
  | some _ => w
  | none => { w with status := some code }

/-- The method `Write`: sends status 200 first if no header was sent yet. -/
def ResponseWriter.Write (w : ResponseWriter) (p : Payload) : ResponseWriter × Option String :=
  match w.writeErr with
  | some e => (w, some e)
  | none =>
    let w1 := w.WriteHeader 200
    ({ w1 with body := w1.body ++ [p] }, none)

/-- The status code the client receives once the handler has returned: 200 if the handler never
sent one. -/
def ResponseWriter.finalStatus (w : ResponseWriter) : Nat := w.status.getD 200

/-- A response writer on which nothing has been sent. -/
def ResponseWriter.fresh : ResponseWriter := { writeErr := none, status := none, body := [] }

/-- Embedding of `func zipCheck(w http.ResponseWriter, req *http.Request)`. The request is given
by the result of `ioutil.ReadAll(req.Body)`; `newReader` is `zip.NewReader` of the standard
library, which maps the body to the archive's entries or to an error. The result is the response
writer after the handler and the lines it printed. -/
def zipCheck (newReader : List Byte → Except String (List ZipFile)) (w : ResponseWriter)
    (reqBody : Except String (List Byte)) : Outcome (ResponseWriter × List LogLine) :=
  match reqBody with
  | .error err => .ok (w, [.failedToReadBody err])
  | .ok body =>
    match newReader body with
    | .error err => .ok (w, [.failedToReadZip err])
    | .ok files =>
      match zipCheckLoop files { fileDescriptions := .nil, printed := [] } with
      | .panic i n => .panic i n
      | .ok st =>
        match jsonMarshal st.fileDescriptions with
        | .error err =>
          let w1 := w.WriteHeader 500
          .ok ((w1.Write (.text err)).1, st.printed)
        | .ok respData =>
          match w.Write (.json respData) with
          | (w1, some err) => .ok (w1, st.printed ++ [.writeFailed err])
          | (w1, none) => .ok (w1, st.printed)

/-! ## Auxiliary definitions used to state the properties -/

/-- Whether the byte list `b` begins with the bytes `m`. -/
def startsWith (b m : List Byte) : Bool := decide (m.length ≤ b.length ∧ b.take m.length = m)

/-- The labels of the classification block of `zipCheck`, written as one expression: each `if`
contributes its label or nothing. -/
def hintsOf (b : List Byte) : List String :=
  (if startsWith b [0x25, 0x50, 0x44, 0x46] then ["PDF"] else []) ++
  (if startsWith b [0x4D, 0x5A] then ["Windows Executable"] else []) ++
  (if startsWith b [0x7F, 0x45, 0x4C, 0x46] then ["ELF Executable"] else []) ++
  (if startsWith b [0x50, 0x4B, 0x03] || (startsWith b [0x50, 0x4B, 0x04] ||
      startsWith b [0x50, 0x4B, 0x05]) then ["ZIP"] else []) ++
  (if startsWith b [0xD0, 0xCF, 0x11, 0xE0, 0xA1, 0xB1, 0x1A, 0xE1] then ["MS-Office"] else []) ++
  (if startsWith b [0x6B, 0x6F, 0x6C, 0x79] then ["Apple Disk Image"] else [])

/-- The record the archive loop is expected to produce for one entry: none for a directory marker
(name ending in `/`) and for an entry whose extraction fails, otherwise name, length of the
extracted bytes and the classifier's labels for them. -/
def describe (zf : ZipFile) : Option fileDesc :=
  if hasSuffix zf.Name "/" then none
  else
    match zf.readZipFile with
    | .error _ => none
    | .ok bytes =>
      some { Filename := zf.Name, Size := (bytes.length : Int), TypeHints := .mk (specClassify bytes) }

/-- Every entry that can be extracted yields a byte slice whose length fits in an `int`. -/
def ValidEntries (files : List ZipFile) : Prop :=
  ∀ zf ∈ files, ∀ bytes, zf.readZipFile = .ok bytes → (bytes.length : Int) ≤ maxInt

/-! ## Basic facts -/

theorem wrapInt_of_inRange (x : Int) (h1 : minInt ≤ x) (h2 : x ≤ maxInt) : wrapInt x = x := by
  unfold wrapInt
  unfold minInt at h1
  unfold maxInt at h2
  rw [Int.emod_eq_of_lt (by omega) (by omega)]
  omega

theorem index_of_lt (s : List Byte) (k : Nat) (h : k < s.length) :
    index s (k : Int) = .ok (s.get ⟨k, h⟩) := by
  unfold index
  simp [List.getElem?_eq_getElem h]

theorem index_of_neg (s : List Byte) (i : Int) (h : i < 0) :
    index s i = .panic i s.length := by
  unfold index
  simp [Int.not_le.mpr h]

theorem checkStaticMagicLoop_inBounds (o : Nat) (s : List Byte)
    (hs : (s.length : Int) ≤ maxInt) :
    ∀ (rest : List Byte) (i : Nat), o + i + rest.length ≤ s.length →
      checkStaticMagicLoop (o : Int) s i rest =
        .ok (decide ((s.drop (o + i)).take rest.length = rest)) := by
  intro rest
  induction rest with
  | nil => intro i _; simp [checkStaticMagicLoop]
  | cons m rest ih =>
    intro i h
    simp only [List.length_cons] at h
    have hlt : o + i < s.length := by omega
    have hw : wrapInt ((i : Int) + (o : Int)) = ((o + i : Nat) : Int) := by
      rw [wrapInt_of_inRange]
      · push_cast; omega
      · unfold minInt; omega
      · omega
    have hd : s.drop (o + i) = s.get ⟨o + i, hlt⟩ :: s.drop (o + i + 1) := by
      simp
    rw [checkStaticMagicLoop]
    simp only [hw, index_of_lt s (o + i) hlt]
    by_cases hb : s.get ⟨o + i, hlt⟩ = m
    · have := ih (i + 1) (by omega)
      simp only [hb, ne_eq, not_true_eq_false, if_false, this]
      rw [hd, hb, List.length_cons, List.take_succ_cons]
      simp only [List.cons.injEq, true_and, Nat.add_assoc]
    · simp only [ne_eq, hb, not_false_eq_true, if_true]
      rw [hd, List.length_cons, List.take_succ_cons]
      simp only [List.cons.injEq, hb, false_and, decide_False]

theorem checkStaticMagic_of_nat (o : Nat) (s m : List Byte)
    (ho : (o : Int) ≤ maxInt) (hs : (s.length : Int) ≤ maxInt) :
    checkStaticMagic (o : Int) s m =
      .ok (decide (o + m.length ≤ s.length ∧ sliceOf s o (o + m.length) = m)) := by
  have hw : wrapInt ((s.length : Int) - (o : Int)) = (s.length : Int) - (o : Int) := by
    apply wrapInt_of_inRange
    · unfold minInt; unfold maxInt at ho; omega
    · omega
  unfold checkStaticMagic
  simp only [hw]
  by_cases h : o + m.length ≤ s.length
  · have hnot : ¬ ((s.length : Int) - (o : Int) < (m.length : Int)) := by omega
    rw [if_neg hnot, checkStaticMagicLoop_inBounds o s hs m 0 (by omega)]
    simp [h, sliceOf]
  · have hlt : (s.length : Int) - (o : Int) < (m.length : Int) := by omega
    rw [if_pos hlt]
    simp [h]

theorem checkStaticMagic_zero (b m : List Byte) (hb : (b.length : Int) ≤ maxInt) :
    checkStaticMagic 0 b m = .ok (startsWith b m) := by
  have h := checkStaticMagic_of_nat 0 b m (by unfold maxInt; simp) hb
  simpa [sliceOf, startsWith] using h

theorem typeHints_eq_hintsOf (b : List Byte) (hb : (b.length : Int) ≤ maxInt) :
    typeHints b = .ok (.mk (hintsOf b)) := by
  unfold typeHints hintsOf
  simp only [checkStaticMagic_zero _ _ hb]
  generalize startsWith b [0x25, 0x50, 0x44, 0x46] = p1
  generalize startsWith b [0x4D, 0x5A] = p2
  generalize startsWith b [0x7F, 0x45, 0x4C, 0x46] = p3
  generalize startsWith b [0x50, 0x4B, 0x03] = p4
  generalize startsWith b [0x50, 0x4B, 0x04] = p5
  generalize startsWith b [0x50, 0x4B, 0x05] = p6
  generalize startsWith b [0xD0, 0xCF, 0x11, 0xE0, 0xA1, 0xB1, 0x1A, 0xE1] = p7
  generalize startsWith b [0x6B, 0x6F, 0x6C, 0x79] = p8
  cases p1 <;> cases p2 <;> cases p3 <;> cases p4 <;> cases p5 <;> cases p6 <;>
    cases p7 <;> cases p8 <;> rfl

theorem startsWith_iff_take (b m : List Byte) :
    startsWith b m = true ↔ m.length ≤ b.length ∧ b.take m.length = m := by
  simp [startsWith]

theorem startsWith_eq_of_length_eq (b m1 m2 : List Byte) (h1 : startsWith b m1 = true)
    (h2 : startsWith b m2 = true) (hlen : m1.length = m2.length) : m1 = m2 := by
  rw [startsWith_iff_take] at h1 h2
  rw [← h1.2, ← h2.2, hlen]

theorem startsWith_head (b m : List Byte) (x : Byte) (h : startsWith b (x :: m) = true) :
    b.head? = some x := by
  rw [startsWith_iff_take] at h
  cases b with
  | nil => simp at h
  | cons y t =>
    have h2 := h.2
    simp only [List.length_cons, List.take_succ_cons, List.cons.injEq] at h2
    simp [h2.1]

theorem startsWith_append (b c m : List Byte) (h : startsWith b m = true) :
    startsWith (b ++ c) m = true := by
  rw [startsWith_iff_take] at h ⊢
  refine ⟨by rw [List.length_append]; omega, ?_⟩
  rw [List.take_append_of_le_length h.1]
  exact h.2

theorem startsWith_take (b m : List Byte) (n : Nat) (hn : m.length ≤ n) :
    startsWith (b.take n) m = startsWith b m := by
  rw [Bool.eq_iff_iff, startsWith_iff_take, startsWith_iff_take, List.length_take,
    List.take_take, Nat.min_eq_left hn]
  constructor
  · rintro ⟨h1, h2⟩
    exact ⟨by omega, h2⟩
  · rintro ⟨h1, h2⟩
    exact ⟨by omega, h2⟩

theorem matchesContent_zero (m : List Byte) (l : String) (b : List Byte) :
    SignatureRule.matchesContent ⟨0, m, l⟩ b = startsWith b m := by
  simp [SignatureRule.matchesContent, sliceOf, startsWith]

theorem hintsOf_eq_specClassify (b : List Byte) : hintsOf b = specClassify b := by
  have h45 : ¬ (startsWith b [0x50, 0x4B, 0x03] = true ∧ startsWith b [0x50, 0x4B, 0x04] = true) :=
    fun h => absurd (startsWith_eq_of_length_eq b _ _ h.1 h.2 rfl) (by decide)
  have h46 : ¬ (startsWith b [0x50, 0x4B, 0x03] = true ∧ startsWith b [0x50, 0x4B, 0x05] = true) :=
    fun h => absurd (startsWith_eq_of_length_eq b _ _ h.1 h.2 rfl) (by decide)
  have h56 : ¬ (startsWith b [0x50, 0x4B, 0x04] = true ∧ startsWith b [0x50, 0x4B, 0x05] = true) :=
    fun h => absurd (startsWith_eq_of_length_eq b _ _ h.1 h.2 rfl) (by decide)
  unfold hintsOf specClassify classifyWith specRules
  simp only [List.foldl, matchesContent_zero]
  revert h45 h46 h56
  generalize startsWith b [0x25, 0x50, 0x44, 0x46] = p1
  generalize startsWith b [0x4D, 0x5A] = p2
  generalize startsWith b [0x7F, 0x45, 0x4C, 0x46] = p3
  generalize startsWith b [0x50, 0x4B, 0x03] = p4
  generalize startsWith b [0x50, 0x4B, 0x04] = p5
  generalize startsWith b [0x50, 0x4B, 0x05] = p6
  generalize startsWith b [0xD0, 0xCF, 0x11, 0xE0, 0xA1, 0xB1, 0x1A, 0xE1] = p7
  generalize startsWith b [0x6B, 0x6F, 0x6C, 0x79] = p8
  cases p1 <;> cases p2 <;> cases p3 <;> cases p4 <;> cases p5 <;> cases p6 <;>
    cases p7 <;> cases p8 <;> simp

theorem typeHints_eq_specClassify (b : List Byte) (hb : (b.length : Int) ≤ maxInt) :
    typeHints b = .ok (.mk (specClassify b)) := by
  rw [typeHints_eq_hintsOf b hb, hintsOf_eq_specClassify]

theorem GoSlice.toList_foldl_append {α : Type} (xs : List α) :
    ∀ s : GoSlice α, (xs.foldl GoSlice.append s).toList = s.toList ++ xs := by
  induction xs with
  | nil => intro s; simp
  | cons x xs ih =>
    intro s
    rw [List.foldl_cons, ih]
    simp [GoSlice.append, GoSlice.toList]

theorem ValidEntries.tail {zf : ZipFile} {files : List ZipFile} (h : ValidEntries (zf :: files)) :
    ValidEntries files :=
  fun z hz bytes hb => h z (List.mem_cons_of_mem _ hz) bytes hb

theorem zipCheckBody_eq (zf : ZipFile) (st : LoopState)
    (hv : ∀ bytes, zf.readZipFile = .ok bytes → (bytes.length : Int) ≤ maxInt) :
    ∃ printed, zipCheckBody zf st =
      .ok ⟨((describe zf).toList).foldl GoSlice.append st.fileDescriptions, printed⟩ := by
  cases hdir : hasSuffix zf.Name "/" with
  | true =>
    refine ⟨st.printed ++ [.hasSuffixSkipping], ?_⟩
    unfold zipCheckBody describe
    rw [hdir]
    rfl
  | false =>
    cases hread : zf.readZipFile with
    | error err =>
      refine ⟨st.printed ++ [.readingFile zf.Name] ++ [.failedToInspect err], ?_⟩
      unfold zipCheckBody describe
      rw [hdir, hread]
      rfl
    | ok bytes =>
      have ht := typeHints_eq_specClassify bytes (hv bytes hread)
      refine ⟨st.printed ++ [.readingFile zf.Name], ?_⟩
      unfold zipCheckBody describe
      rw [hdir, hread]
      show (typeHints bytes).bind _ = _
      rw [ht]
      rfl

theorem zipCheckLoop_eq (files : List ZipFile) (hv : ValidEntries files) :
    ∀ st : LoopState, ∃ printed, zipCheckLoop files st =
      .ok ⟨(files.filterMap describe).foldl GoSlice.append st.fileDescriptions, printed⟩ := by
  induction files with
  | nil => intro st; exact ⟨st.printed, by simp [zipCheckLoop]⟩
  | cons zf rest ih =>
    intro st
    obtain ⟨pr1, h1⟩ := zipCheckBody_eq zf st (hv zf (List.mem_cons_self _ _))
    obtain ⟨pr, hpr⟩ := ih hv.tail
      ⟨((describe zf).toList).foldl GoSlice.append st.fileDescriptions, pr1⟩
    refine ⟨pr, ?_⟩
    rw [zipCheckLoop, h1]
    simp only [hpr]
    cases hd : describe zf <;> simp [Option.toList, List.filterMap_cons, hd]

/-! ## Claims about `checkStaticMagic` -/

/-- C1: for an offset `>= 0` (an `int`), a subject and a magic byte slice, `checkStaticMagic`
returns (it does not panic), and it returns true if and only if
`offset + len(magic) <= len(subject)` and `subject[offset : offset+len(magic)]` equals `magic`
byte for byte. -/
theorem checkStaticMagic_true_iff (offset : Int) (subject magic : List Byte)
    (h0 : 0 ≤ offset) (hmax : offset ≤ maxInt) (hs : (subject.length : Int) ≤ maxInt) :
    ∃ r, checkStaticMagic offset subject magic = .ok r ∧
      (r = true ↔ (offset + (magic.length : Int) ≤ (subject.length : Int) ∧
        sliceOf subject offset.toNat (offset.toNat + magic.length) = magic)) := by
  obtain ⟨o, rfl⟩ := Int.eq_ofNat_of_zero_le h0
  refine ⟨_, checkStaticMagic_of_nat o subject magic hmax hs, ?_⟩
  simp only [Int.toNat_ofNat, decide_eq_true_eq]
  constructor
  · rintro ⟨h1, h2⟩
    exact ⟨by omega, h2⟩
  · rintro ⟨h1, h2⟩
    exact ⟨by omega, h2⟩

/-- C1, at offset 1 on the subject `MZAB`: the magic `ZA` is found, the magic `ZB` is not. -/
theorem checkStaticMagic_true_iff_witness :
    (∃ r, checkStaticMagic 1 [0x4D, 0x5A, 0x41, 0x42] [0x5A, 0x41] = .ok r ∧
      (r = true ↔ ((1 : Int) + (([0x5A, 0x41] : List Byte).length : Int) ≤
          (([0x4D, 0x5A, 0x41, 0x42] : List Byte).length : Int) ∧
        sliceOf [0x4D, 0x5A, 0x41, 0x42] (1 : Int).toNat
          ((1 : Int).toNat + ([0x5A, 0x41] : List Byte).length) = [0x5A, 0x41]))) ∧
    sliceOf [0x4D, 0x5A, 0x41, 0x42] 1 3 = ([0x5A, 0x41] : List Byte) :=
  ⟨checkStaticMagic_true_iff 1 [0x4D, 0x5A, 0x41, 0x42] [0x5A, 0x41] (by decide) (by decide)
    (by decide), by decide⟩

/-- C10, as stated, fails when the subtraction `len(subjectSlice)-offset` overflows: with
`offset` the smallest `int`, the wrapped difference is negative, the length check reports
"not enough bytes" and the call returns false instead of panicking. -/
theorem checkStaticMagic_minInt_returns_false :
    (minInt < 0 ∧ ([0x4D] : List Byte) ≠ [] ∧
      (([0x4D, 0x5A] : List Byte).length : Int) - minInt ≥ (([0x4D] : List Byte).length : Int)) ∧
    checkStaticMagic minInt [0x4D, 0x5A] [0x4D] = .ok false := by
  refine ⟨⟨by decide, by decide, by decide⟩, ?_⟩
  with_unfolding_all decide

/-- C10, amended: for an offset `< 0`, a non-empty magic and a subject with
`len(subject) - offset >= len(magic)`, provided the subtraction does not overflow the `int`
range, the length check passes and the first comparison indexes `subject` at the negative
index `offset`: the call panics with index out of range instead of returning false. -/
theorem checkStaticMagic_negative_offset_panics (offset : Int) (subject magic : List Byte)
    (hneg : offset < 0) (hmin : minInt ≤ offset) (hmagic : magic ≠ [])
    (hlen : (subject.length : Int) - offset ≥ (magic.length : Int))
    (hno : (subject.length : Int) - offset ≤ maxInt) :
    checkStaticMagic offset subject magic = .panic offset subject.length := by
  have hw : wrapInt ((subject.length : Int) - offset) = (subject.length : Int) - offset := by
    apply wrapInt_of_inRange
    · unfold minInt; omega
    · exact hno
  have hw0 : wrapInt (((0 : Nat) : Int) + offset) = offset := by
    rw [wrapInt_of_inRange]
    · simp
    · simpa using hmin
    · unfold maxInt; omega
  cases magic with
  | nil => exact absurd rfl hmagic
  | cons m rest =>
    unfold checkStaticMagic
    simp only [hw]
    rw [if_neg (by omega), checkStaticMagicLoop]
    simp only [hw0, index_of_neg subject offset hneg]

/-- C10, amended, at offset `-1` on the subject `MZ` with the magic `M`. -/
theorem checkStaticMagic_negative_offset_panics_witness :
    checkStaticMagic (-1) [0x4D, 0x5A] [0x4D] = .panic (-1) 2 :=
  checkStaticMagic_negative_offset_panics (-1) [0x4D, 0x5A] [0x4D] (by decide) (by decide)
    (by decide) (by decide) (by decide)

/-! ## Claims about the classification block -/

theorem hintsOf_length_le_one (b : List Byte) : (hintsOf b).length ≤ 1 := by
  have h1 := startsWith_head b [0x50, 0x44, 0x46] 0x25
  have h2 := startsWith_head b [0x5A] 0x4D
  have h3 := startsWith_head b [0x45, 0x4C, 0x46] 0x7F
  have h4 := startsWith_head b [0x4B, 0x03] 0x50
  have h5 := startsWith_head b [0x4B, 0x04] 0x50
  have h6 := startsWith_head b [0x4B, 0x05] 0x50
  have h7 := startsWith_head b [0xCF, 0x11, 0xE0, 0xA1, 0xB1, 0x1A, 0xE1] 0xD0
  have h8 := startsWith_head b [0x6F, 0x6C, 0x79] 0x6B
  unfold hintsOf
  revert h1 h2 h3 h4 h5 h6 h7 h8
  generalize startsWith b [0x25, 0x50, 0x44, 0x46] = p1
  generalize startsWith b [0x4D, 0x5A] = p2
  generalize startsWith b [0x7F, 0x45, 0x4C, 0x46] = p3
  generalize startsWith b [0x50, 0x4B, 0x03] = p4
  generalize startsWith b [0x50, 0x4B, 0x04] = p5
  generalize startsWith b [0x50, 0x4B, 0x05] = p6
  generalize startsWith b [0xD0, 0xCF, 0x11, 0xE0, 0xA1, 0xB1, 0x1A, 0xE1] = p7
  generalize startsWith b [0x6B, 0x6F, 0x6C, 0x79] = p8
  generalize b.head? = hd
  intro h1 h2 h3 h4 h5 h6 h7 h8
  cases p1 <;> cases p2 <;> cases p3 <;> cases p4 <;> cases p5 <;> cases p6 <;>
    cases p7 <;> cases p8 <;> simp_all

theorem mem_hint_mono (p q : Bool) (x l : String) (hpq : p = true → q = true)
    (h : l ∈ (if p = true then [x] else [])) : l ∈ (if q = true then [x] else []) := by
  cases p <;> cases q <;> simp_all

theorem hintsOf_append_mem (b c : List Byte) (l : String) (h : l ∈ hintsOf b) :
    l ∈ hintsOf (b ++ c) := by
  unfold hintsOf at h ⊢
  simp only [List.mem_append] at h ⊢
  have hz : (startsWith b [0x50, 0x4B, 0x03] || (startsWith b [0x50, 0x4B, 0x04] ||
        startsWith b [0x50, 0x4B, 0x05])) = true →
      (startsWith (b ++ c) [0x50, 0x4B, 0x03] || (startsWith (b ++ c) [0x50, 0x4B, 0x04] ||
        startsWith (b ++ c) [0x50, 0x4B, 0x05])) = true := by
    simp only [Bool.or_eq_true]
    rintro (h | h | h)
    · exact Or.inl (startsWith_append b c _ h)
    · exact Or.inr (Or.inl (startsWith_append b c _ h))
    · exact Or.inr (Or.inr (startsWith_append b c _ h))
  rcases h with ((((h | h) | h) | h) | h) | h
  · exact Or.inl (Or.inl (Or.inl (Or.inl (Or.inl
      (mem_hint_mono _ _ _ _ (startsWith_append b c _) h)))))
  · exact Or.inl (Or.inl (Or.inl (Or.inl (Or.inr
      (mem_hint_mono _ _ _ _ (startsWith_append b c _) h)))))
  · exact Or.inl (Or.inl (Or.inl (Or.inr
      (mem_hint_mono _ _ _ _ (startsWith_append b c _) h))))
  · exact Or.inl (Or.inl (Or.inr (mem_hint_mono _ _ _ _ hz h)))
  · exact Or.inl (Or.inr (mem_hint_mono _ _ _ _ (startsWith_append b c _) h))
  · exact Or.inr (mem_hint_mono _ _ _ _ (startsWith_append b c _) h)

theorem hintsOf_take_eight (b : List Byte) : hintsOf (b.take 8) = hintsOf b := by
  unfold hintsOf
  rw [startsWith_take b [0x25, 0x50, 0x44, 0x46] 8 (by decide),
    startsWith_take b [0x4D, 0x5A] 8 (by decide),
    startsWith_take b [0x7F, 0x45, 0x4C, 0x46] 8 (by decide),
    startsWith_take b [0x50, 0x4B, 0x03] 8 (by decide),
    startsWith_take b [0x50, 0x4B, 0x04] 8 (by decide),
    startsWith_take b [0x50, 0x4B, 0x05] 8 (by decide),
    startsWith_take b [0xD0, 0xCF, 0x11, 0xE0, 0xA1, 0xB1, 0x1A, 0xE1] 8 (by decide),
    startsWith_take b [0x6B, 0x6F, 0x6C, 0x79] 8 (by decide)]

theorem startsWith_of_take (b m : List Byte) (h : b.take m.length = m) :
    startsWith b m = true := by
  rw [startsWith_iff_take]
  refine ⟨?_, h⟩
  have hl := congrArg List.length h
  rw [List.length_take] at hl
  omega

/-- C2: for every content buffer, the `typeHints` list built in `zipCheck` is the output of the
specification's table-driven classifier over the eight rules, each rule tested on its own; the
single short-circuiting `||` over the three ZIP patterns gives the same list as three separate
ZIP rules. -/
theorem typeHints_refines_specClassify (content : List Byte)
    (hlen : (content.length : Int) ≤ maxInt) :
    typeHints content = .ok (.mk (specClassify content)) ∧
      specClassify content = classifyWith
        [ ⟨0, [0x25, 0x50, 0x44, 0x46], "PDF"⟩,
          ⟨0, [0x4D, 0x5A], "Windows Executable"⟩,
          ⟨0, [0x7F, 0x45, 0x4C, 0x46], "ELF Executable"⟩,
          ⟨0, [0x50, 0x4B, 0x03], "ZIP"⟩,
          ⟨0, [0x50, 0x4B, 0x04], "ZIP"⟩,
          ⟨0, [0x50, 0x4B, 0x05], "ZIP"⟩,
          ⟨0, [0xD0, 0xCF, 0x11, 0xE0, 0xA1, 0xB1, 0x1A, 0xE1], "MS-Office"⟩,
          ⟨0, [0x6B, 0x6F, 0x6C, 0x79], "Apple Disk Image"⟩ ] content :=
  ⟨typeHints_eq_specClassify content hlen, rfl⟩

/-- C2, on the ZIP local file header `50 4B 03 04`: code and table both give one `ZIP`. -/
theorem typeHints_refines_specClassify_witness :
    typeHints [0x50, 0x4B, 0x03, 0x04] = .ok (.mk ["ZIP"]) := by
  have h := (typeHints_refines_specClassify [0x50, 0x4B, 0x03, 0x04] (by decide)).1
  rw [h]
  decide

/-- C5: the classifier is total. For every content buffer, a `checkStaticMagic` call at offset 0
returns without an out-of-range index whatever the pattern (so each of the eight calls does), a
pattern longer than the buffer does not match, the whole block yields a list, and the empty
buffer yields the empty list. -/
theorem typeHints_total (content : List Byte) (hlen : (content.length : Int) ≤ maxInt) :
    (∀ magic : List Byte, ∃ r, checkStaticMagic 0 content magic = .ok r ∧
      (content.length < magic.length → r = false)) ∧
    (∃ hints, typeHints content = .ok hints) ∧
    typeHints [] = .ok (.mk []) := by
  refine ⟨fun magic => ⟨_, checkStaticMagic_zero content magic hlen, ?_⟩,
    ⟨_, typeHints_eq_hintsOf content hlen⟩, ?_⟩
  · intro h
    simp only [startsWith, decide_eq_false_iff_not, not_and]
    intro h2
    omega
  · rw [typeHints_eq_hintsOf [] (by decide)]
    decide

/-- C5, on the one-byte buffer `50`: each of the eight calls returns false and the list is
empty. -/
theorem typeHints_total_witness :
    (∀ magic : List Byte, ∃ r, checkStaticMagic 0 [0x50] magic = .ok r ∧
      (([0x50] : List Byte).length < magic.length → r = false)) ∧
    typeHints [0x50] = .ok (.mk []) := by
  have h := typeHints_total [0x50] (by decide)
  refine ⟨h.1, ?_⟩
  rw [typeHints_eq_hintsOf [0x50] (by decide)]
  decide

/-- C6: a buffer whose first 4 bytes are `25 50 44 46` gets the hint `PDF`; a buffer whose first
2 bytes are `4D 5A` gets `Windows Executable` whatever follows; a buffer that starts with
`50 4B 03` gets `ZIP`. -/
theorem typeHints_contains_signature_label (content : List Byte)
    (hlen : (content.length : Int) ≤ maxInt) :
    (content.take 4 = [0x25, 0x50, 0x44, 0x46] →
      ∃ hints, typeHints content = .ok hints ∧ "PDF" ∈ hints.toList) ∧
    (content.take 2 = [0x4D, 0x5A] →
      ∃ hints, typeHints content = .ok hints ∧ "Windows Executable" ∈ hints.toList) ∧
    (content.take 3 = [0x50, 0x4B, 0x03] →
      ∃ hints, typeHints content = .ok hints ∧ "ZIP" ∈ hints.toList) := by
  refine ⟨fun h => ⟨_, typeHints_eq_hintsOf content hlen, ?_⟩,
    fun h => ⟨_, typeHints_eq_hintsOf content hlen, ?_⟩,
    fun h => ⟨_, typeHints_eq_hintsOf content hlen, ?_⟩⟩
  · have hp := startsWith_of_take content [0x25, 0x50, 0x44, 0x46] h
    simp [GoSlice.toList, hintsOf, hp]
  · have hp := startsWith_of_take content [0x4D, 0x5A] h
    simp [GoSlice.toList, hintsOf, hp]
  · have hp := startsWith_of_take content [0x50, 0x4B, 0x03] h
    simp [GoSlice.toList, hintsOf, hp]

/-- C6, on the buffers `MZAB` and `50 4B 03 04` of the specification, and on `%PDF-`. -/
theorem typeHints_contains_signature_label_witness :
    (∃ hints, typeHints [0x4D, 0x5A, 0x41, 0x42] = .ok hints ∧
      "Windows Executable" ∈ hints.toList) ∧
    (∃ hints, typeHints [0x50, 0x4B, 0x03, 0x04] = .ok hints ∧ "ZIP" ∈ hints.toList) ∧
    (∃ hints, typeHints [0x25, 0x50, 0x44, 0x46, 0x2D] = .ok hints ∧ "PDF" ∈ hints.toList) :=
  ⟨(typeHints_contains_signature_label [0x4D, 0x5A, 0x41, 0x42] (by decide)).2.1 (by decide),
    (typeHints_contains_signature_label [0x50, 0x4B, 0x03, 0x04] (by decide)).2.2 (by decide),
    (typeHints_contains_signature_label [0x25, 0x50, 0x44, 0x46, 0x2D] (by decide)).1
      (by decide)⟩

/-- C7, as stated, fails: no content buffer gets two or more labels, since every pattern is
tested at offset 0 and patterns of different labels differ in their first byte. -/
theorem typeHints_never_two_labels :
    ¬ ∃ content : List Byte, (content.length : Int) ≤ maxInt ∧
      ∃ hints, typeHints content = .ok hints ∧ 2 ≤ hints.toList.length := by
  rintro ⟨content, hlen, hints, h, h2⟩
  rw [typeHints_eq_hintsOf content hlen] at h
  injection h with h
  subst h
  have := hintsOf_length_le_one content
  simp only [GoSlice.toList] at h2
  omega

/-- C7, amended: every rule is tested on every buffer, none stops another (the list is the one
of the table-driven classifier), and a content buffer gets zero or one label, never more. -/
theorem typeHints_at_most_one_label (content : List Byte)
    (hlen : (content.length : Int) ≤ maxInt) :
    ∃ hints, typeHints content = .ok hints ∧ hints.toList = specClassify content ∧
      hints.toList.length ≤ 1 :=
  ⟨_, typeHints_eq_hintsOf content hlen, hintsOf_eq_specClassify content,
    hintsOf_length_le_one content⟩

/-- C7, amended, on the OLE signature, which gets the one label `MS-Office`. -/
theorem typeHints_at_most_one_label_witness :
    ∃ hints, typeHints [0xD0, 0xCF, 0x11, 0xE0, 0xA1, 0xB1, 0x1A, 0xE1] = .ok hints ∧
      hints.toList = specClassify [0xD0, 0xCF, 0x11, 0xE0, 0xA1, 0xB1, 0x1A, 0xE1] ∧
      hints.toList.length ≤ 1 :=
  typeHints_at_most_one_label [0xD0, 0xCF, 0x11, 0xE0, 0xA1, 0xB1, 0x1A, 0xE1] (by decide)

/-- C9: classification looks at a leading part of the buffer only and is monotone under
extension: every label of `b` is a label of `b ++ c`, and the labels of a buffer are those of its
first 8 bytes. -/
theorem typeHints_leading_bytes_monotone (b c : List Byte)
    (hlen : ((b ++ c).length : Int) ≤ maxInt) :
    ∃ hb hbc h8, typeHints b = .ok hb ∧ typeHints (b ++ c) = .ok hbc ∧
      typeHints (b.take 8) = .ok h8 ∧
      (∀ l, l ∈ hb.toList → l ∈ hbc.toList) ∧ hb = h8 := by
  have hb : (b.length : Int) ≤ maxInt := by
    rw [List.length_append] at hlen
    push_cast at hlen
    omega
  have h8 : ((b.take 8).length : Int) ≤ maxInt := by
    have := List.length_take 8 b
    omega
  refine ⟨_, _, _, typeHints_eq_hintsOf b hb, typeHints_eq_hintsOf (b ++ c) hlen,
    typeHints_eq_hintsOf _ h8, ?_, ?_⟩
  · intro l hl
    exact hintsOf_append_mem b c l hl
  · rw [hintsOf_take_eight]

/-- C9, on the 9-byte buffer `MZ` followed by seven zero bytes, extended by `AB`. -/
theorem typeHints_leading_bytes_monotone_witness :
    ∃ hb hbc h8, typeHints [0x4D, 0x5A, 0, 0, 0, 0, 0, 0, 0] = .ok hb ∧
      typeHints ([0x4D, 0x5A, 0, 0, 0, 0, 0, 0, 0] ++ [0x41, 0x42]) = .ok hbc ∧
      typeHints (([0x4D, 0x5A, 0, 0, 0, 0, 0, 0, 0] : List Byte).take 8) = .ok h8 ∧
      (∀ l, l ∈ hb.toList → l ∈ hbc.toList) ∧ hb = h8 :=
  typeHints_leading_bytes_monotone [0x4D, 0x5A, 0, 0, 0, 0, 0, 0, 0] [0x41, 0x42] (by decide)

/-! ## Claims about the handler -/

theorem GoSlice.foldl_append_mk {α : Type} (ys : List α) :
    ∀ xs : List α, ys.foldl GoSlice.append (GoSlice.mk xs) = GoSlice.mk (xs ++ ys) := by
  induction ys with
  | nil => intro xs; simp
  | cons y ys ih =>
    intro xs
    rw [List.foldl_cons]
    simp only [GoSlice.append, GoSlice.toList]
    rw [ih]
    simp

theorem GoSlice.foldl_append_nil {α : Type} (ys : List α) :
    ys.foldl GoSlice.append (GoSlice.nil : GoSlice α) =
      if ys.isEmpty then GoSlice.nil else GoSlice.mk ys := by
  cases ys with
  | nil => rfl
  | cons y ys =>
    rw [List.foldl_cons]
    simp only [GoSlice.append, GoSlice.toList]
    rw [GoSlice.foldl_append_mk]
    simp

theorem describe_filterMap_length (files : List ZipFile) :
    (files.filterMap describe).length =
      (files.filter fun zf => !hasSuffix zf.Name "/" && zf.readZipFile.toBool).length := by
  induction files with
  | nil => rfl
  | cons zf rest ih =>
    cases hdir : hasSuffix zf.Name "/" <;> cases hread : zf.readZipFile <;>
      simp [List.filterMap_cons, List.filter_cons, describe, hdir, hread, ih, Except.toBool]

theorem describe_filename (zf : ZipFile) (d : fileDesc) (h : describe zf = some d) :
    d.Filename = zf.Name ∧ hasSuffix zf.Name "/" = false := by
  unfold describe at h
  cases hdir : hasSuffix zf.Name "/" <;> cases hread : zf.readZipFile <;>
    simp [hdir, hread] at h
  subst h
  exact ⟨rfl, rfl⟩

/-- C3: for every successfully parsed archive, given as its ordered list of entries (name,
extraction result), the loop of `zipCheck` returns, and the `fileDescriptions` it builds are, in
archive order, one record (name, length of the extracted bytes, classifier output on them) for
each entry whose name does not end in `/` and whose extraction succeeded. The number of records
is the number of such entries, no record carries a name ending in `/`, and an entry that fails
extraction only drops its own record. -/
theorem zipCheckLoop_fileDescriptions (files : List ZipFile) (hv : ValidEntries files) :
    ∃ st, zipCheckLoop files { fileDescriptions := .nil, printed := [] } = .ok st ∧
      st.fileDescriptions.toList = files.filterMap describe ∧
      st.fileDescriptions.toList.length =
        (files.filter fun zf => !hasSuffix zf.Name "/" && zf.readZipFile.toBool).length ∧
      ∀ d ∈ st.fileDescriptions.toList, hasSuffix d.Filename "/" = false := by
  obtain ⟨printed, h⟩ := zipCheckLoop_eq files hv { fileDescriptions := .nil, printed := [] }
  have key : ((files.filterMap describe).foldl GoSlice.append
      (GoSlice.nil : GoSlice fileDesc)).toList = files.filterMap describe := by
    rw [GoSlice.toList_foldl_append]
    rfl
  refine ⟨_, h, key, ?_, ?_⟩
  · show ((files.filterMap describe).foldl GoSlice.append
      (GoSlice.nil : GoSlice fileDesc)).toList.length = _
    rw [key, describe_filterMap_length]
  · intro d hd
    have hd2 : d ∈ files.filterMap describe := by
      rw [← key]
      exact hd
    obtain ⟨zf, _, hzf⟩ := List.mem_filterMap.mp hd2
    have := describe_filename zf d hzf
    rw [this.1]
    exact this.2

theorem validEntries_example :
    ValidEntries
      [ ⟨"a.txt", .ok [0x48, 0x65, 0x6C, 0x6C, 0x6F]⟩,
        ⟨"docs/", .ok []⟩,
        ⟨"bad.bin", .error "unexpected EOF"⟩,
        ⟨"b.bin", .ok [0xD0, 0xCF, 0x11, 0xE0, 0xA1, 0xB1, 0x1A, 0xE1]⟩ ] := by
  intro zf hz bytes hb
  simp only [List.mem_cons, List.mem_singleton, List.not_mem_nil, or_false] at hz
  rcases hz with rfl | rfl | rfl | rfl
  · injection hb with hb; subst hb; decide
  · injection hb with hb; subst hb; decide
  · cases hb
  · injection hb with hb; subst hb; decide

/-- C3, on the archive of the specification's scenario (`a.txt` = `Hello`, `b.bin` = the OLE
signature) with a directory marker and an unreadable entry in between: two records. -/
theorem zipCheckLoop_fileDescriptions_witness :
    ∃ st, zipCheckLoop
        [ ⟨"a.txt", .ok [0x48, 0x65, 0x6C, 0x6C, 0x6F]⟩,
          ⟨"docs/", .ok []⟩,
          ⟨"bad.bin", .error "unexpected EOF"⟩,
          ⟨"b.bin", .ok [0xD0, 0xCF, 0x11, 0xE0, 0xA1, 0xB1, 0x1A, 0xE1]⟩ ]
        { fileDescriptions := .nil, printed := [] } = .ok st ∧
      st.fileDescriptions.toList =
        [ { Filename := "a.txt", Size := 5, TypeHints := .mk [] },
          { Filename := "b.bin", Size := 8, TypeHints := .mk ["MS-Office"] } ] := by
  obtain ⟨st, h1, h2, _⟩ := zipCheckLoop_fileDescriptions _ validEntries_example
  refine ⟨st, h1, ?_⟩
  rw [h2]
  decide

theorem zipCheck_of_loop (newReader : List Byte → Except String (List ZipFile))
    (body : List Byte) (files : List ZipFile) (st : LoopState) (doc : JsonDoc)
    (hread : newReader body = .ok files)
    (hloop : zipCheckLoop files { fileDescriptions := .nil, printed := [] } = .ok st)
    (hdoc : jsonMarshal st.fileDescriptions = .ok doc) :
    zipCheck newReader ResponseWriter.fresh (.ok body) =
      .ok ({ writeErr := none, status := some 200, body := [.json doc] }, st.printed) := by
  unfold zipCheck
  simp only [hread, hloop, hdoc]
  rfl

/-- C4, what the code does: when `zip.NewReader` returns an error, `zipCheck` prints a line and
returns without touching the response writer. No status code is sent and nothing is written, so
on a writer that had sent nothing the client receives status 200 with an empty body: no
classification result is emitted, but no failure is reported either. -/
theorem zipCheck_unparsable_body_leaves_response_untouched
    (newReader : List Byte → Except String (List ZipFile)) (w : ResponseWriter)
    (body : List Byte) (err : String) (hread : newReader body = .error err) :
    ∃ w1, zipCheck newReader w (.ok body) = .ok (w1, [.failedToReadZip err]) ∧ w1 = w ∧
      (w.status = none → w1.finalStatus = 200) := by
  refine ⟨w, ?_, rfl, ?_⟩
  · unfold zipCheck
    simp only [hread]
  · intro h
    simp [ResponseWriter.finalStatus, h]

/-- C4, on the five bytes `hello`, which are not an archive. -/
theorem zipCheck_unparsable_body_leaves_response_untouched_witness :
    ∃ w1, zipCheck (fun _ => .error "zip: not a valid zip file") ResponseWriter.fresh
        (.ok [0x68, 0x65, 0x6C, 0x6C, 0x6F]) =
      .ok (w1, [.failedToReadZip "zip: not a valid zip file"]) ∧
      w1 = ResponseWriter.fresh ∧ w1.finalStatus = 200 := by
  obtain ⟨w1, h1, h2, h3⟩ := zipCheck_unparsable_body_leaves_response_untouched
    (fun _ => .error "zip: not a valid zip file") ResponseWriter.fresh
    [0x68, 0x65, 0x6C, 0x6C, 0x6F] "zip: not a valid zip file" rfl
  exact ⟨w1, h1, h2, h3 rfl⟩

/-- C8, what the code does: for a successfully parsed archive `zipCheck` writes, with status
200, the encoding of `fileDescriptions`. With at least one extractable file entry this is the
array of the records, each with the keys `filename`, `size`, `type_hints`. With none (no
entries, only directory markers, only entries that fail extraction) `fileDescriptions` is still
the nil slice of its `var` declaration and the document written is `null`, not `[]`. -/
theorem zipCheck_response_document (newReader : List Byte → Except String (List ZipFile))
    (body : List Byte) (files : List ZipFile) (hread : newReader body = .ok files)
    (hv : ValidEntries files) :
    ∃ printed, zipCheck newReader ResponseWriter.fresh (.ok body) =
      .ok ({ writeErr := none, status := some 200,
             body := [.json (if (files.filterMap describe).isEmpty then JsonDoc.null
               else JsonDoc.array ((files.filterMap describe).map marshalFileDesc))] },
        printed) := by
  obtain ⟨printed, h⟩ := zipCheckLoop_eq files hv { fileDescriptions := .nil, printed := [] }
  refine ⟨printed, ?_⟩
  rw [zipCheck_of_loop newReader body files _ _ hread h]
  show jsonMarshal ((files.filterMap describe).foldl GoSlice.append GoSlice.nil) = _
  rw [GoSlice.foldl_append_nil]
  cases files.filterMap describe <;> rfl

theorem validEntries_unextractable :
    ValidEntries [ ⟨"docs/", .ok []⟩, ⟨"bad.bin", .error "unexpected EOF"⟩ ] := by
  intro zf hz bytes hb
  simp only [List.mem_cons, List.mem_singleton, List.not_mem_nil, or_false] at hz
  rcases hz with rfl | rfl
  · injection hb with hb; subst hb; decide
  · cases hb

/-- C8, on an archive holding a directory marker and an unreadable entry: the document written
is `null`. -/
theorem zipCheck_response_document_witness :
    ∃ printed, zipCheck
        (fun _ => .ok [ ⟨"docs/", .ok []⟩, ⟨"bad.bin", .error "unexpected EOF"⟩ ])
        ResponseWriter.fresh (.ok [0x50, 0x4B, 0x05, 0x06]) =
      .ok ({ writeErr := none, status := some 200, body := [.json JsonDoc.null] }, printed) := by
  obtain ⟨printed, h⟩ := zipCheck_response_document
    (fun _ => .ok [ ⟨"docs/", .ok []⟩, ⟨"bad.bin", .error "unexpected EOF"⟩ ])
    [0x50, 0x4B, 0x05, 0x06] _ rfl validEntries_unextractable
  exact ⟨printed, h⟩

end ZipChecker
